import Mathlib

/-!
Formal model of the TINY-language lexical analyzer (`lexer.c` together with
the globals allocated in `main.c`).

The C source is embedded shallowly:

* the token-kind and DFA-state enumerations become inductive types;
* the global line-buffer state (`lineBuf`, `linepos`, `bufsize`, `EOF_flag`,
  `lineno`) together with the not-yet-read part of the source file becomes the
  structure `LexerState`; the source file is a flat list of characters and
  `fgets` is modelled by `takeLine` (read at most `n` characters, stopping
  after a newline, returning `none` at end of input);
* `getNextChar`, `ungetNextChar`, `reservedLookup` are direct transcriptions;
* the `while (state != DONE)` loop of `getToken` is modelled by the single
  iteration `getTokenStep` driven by the fuel-indexed `getTokenLoop`; the
  lexeme buffer `tokenString` is the list of characters stored so far, and the
  C guard `(save) && (tokenStringIndex <= MAXTOKENLEN)` is transcribed
  verbatim in `saveChar` (note: it permits `MAXTOKENLEN + 1` stores);
* `tokenize` models the driver loop of `main.c` that calls `getToken`
  repeatedly until `ENDFILE`.

`MAXTOKENLEN` is defined in `globals.h`, which is not part of the sources
here; its value 40 is taken from the reference TINY distribution the file
headers cite.  Echoing and tracing (`EchoSource`, `TraceLex`) are pure output
side effects and are not modelled.
-/

set_option maxRecDepth 100000

namespace TinyLexer

/-- Token kinds returned by the lexer (the `TokenType` enumeration). -/
inductive TokenType where
  | ENDFILE | ERROR
  | IF | THEN | ELSE | END | REPEAT | UNTIL | READ | WRITE
  | ID | NUM
  | ASSIGN | EQ | LT | PLUS | MINUS | TIMES | OVER | LPAREN | RPAREN | SEMI
  deriving DecidableEq, Repr

/-- States of the scanning DFA (the `StateType` enumeration in `lexer.c`). -/
inductive StateType where
  | START | INASSIGN | INCOMMENT | INNUM | INID | DONE
  deriving DecidableEq, Repr

/-- Result of `getNextChar`: a character of the source, or the `EOF` value. -/
inductive CChar where
  | ch (c : Char)
  | eof
  deriving DecidableEq, Repr

/-- Modelled from the spec: the maximum token length bound `MAXTOKENLEN`.
Its definition lives in `globals.h`, which is not among the given sources;
the value 40 is the one of the reference TINY distribution. -/
def MAXTOKENLEN : Nat := 40

/-- `BUFLEN`, the size of the input line buffer (`lexer.c`, line 28). -/
def BUFLEN : Nat := 256

/-- `isalpha` of the C standard library, restricted to the C locale. -/
def charIsAlpha (c : Char) : Bool :=
  ('A' ≤ c && c ≤ 'Z') || ('a' ≤ c && c ≤ 'z')

/-- `isdigit` of the C standard library. -/
def charIsDigit (c : Char) : Bool :=
  '0' ≤ c && c ≤ '9'

/-- `isalpha` applied to a `getNextChar` result; `isalpha(EOF)` is false. -/
def CChar.isalpha : CChar → Bool
  | .ch c => charIsAlpha c
  | .eof => false

/-- `isdigit` applied to a `getNextChar` result; `isdigit(EOF)` is false. -/
def CChar.isdigit : CChar → Bool
  | .ch c => charIsDigit c
  | .eof => false

/-- The whitespace characters tested explicitly in the `START` state
(`lexer.c`, line 159). -/
def isWhite (c : Char) : Bool :=
  c = ' ' || c = '\t' || c = '\n' || c = '\r' || c = '\x0c' || c = '\x0b'

/-- Whitespace test on a `getNextChar` result; `EOF` matches none of the six
characters. -/
def CChar.isWhiteC : CChar → Bool
  | .ch c => isWhite c
  | .eof => false

/-- Core of `fgets`: read at most `n` characters from the stream, stopping
right after a newline.  Returns the chunk read and the remaining stream. -/
def takeLine : Nat → List Char → List Char × List Char
  | 0, s => ([], s)
  | _ + 1, [] => ([], [])
  | n + 1, c :: s =>
    if c = '\n' then ([c], s)
    else
      let p := takeLine n s
      (c :: p.1, p.2)

/-- `fgets(buf, n, source)`: reads at most `n - 1` characters, stopping after
a newline; returns `none` exactly at end of input. -/
def fgets (n : Nat) (s : List Char) : Option (List Char × List Char) :=
  match s with
  | [] => none
  | c :: s' => some (takeLine (n - 1) (c :: s'))

/-- The process-wide state of the line-buffer manager: the unread remainder
of the source file (`src`), and the globals `lineBuf`, `linepos`, `bufsize`,
`EOF_flag` of `lexer.c` and `lineno` of `main.c`. -/
structure LexerState where
  src : List Char
  lineBuf : List Char
  linepos : Nat
  bufsize : Nat
  eofFlag : Bool
  lineno : Nat
  deriving DecidableEq, Repr

/-- The initial state at program start: `lineno = 0`, empty buffer, flag
clear, the whole file unread. -/
def initLexerState (src : List Char) : LexerState :=
  { src := src, lineBuf := [], linepos := 0, bufsize := 0,
    eofFlag := false, lineno := 0 }

/-- `getNextChar` (`lexer.c`, lines 38-59): return the character at the
cursor, refilling the buffer from the source when it is exhausted.  Note the
transcription keeps the C order of effects: `lineno++` happens before the
`fgets` call, hence also on the failed read at end of input. -/
def getNextChar (s : LexerState) : CChar × LexerState :=
  if s.linepos < s.bufsize then
    (.ch (s.lineBuf.getD s.linepos ' '), { s with linepos := s.linepos + 1 })
  else
    let s1 := { s with lineno := s.lineno + 1 }
    match fgets (BUFLEN - 1) s1.src with
    | some (line, rest) =>
      (.ch (line.getD 0 ' '),
        { s1 with src := rest, lineBuf := line,
                  bufsize := line.length, linepos := 1 })
    | none => (.eof, { s1 with eofFlag := true })

/-- `ungetNextChar` (`lexer.c`, lines 63-67): step the cursor back by one,
unless the end-of-file flag has been latched. -/
def ungetNextChar (s : LexerState) : LexerState :=
  if s.eofFlag then s else { s with linepos := s.linepos - 1 }

/-- The reserved-word table (`lexer.c`, line 74), in its fixed order. -/
def reservedWords : List (List Char × TokenType) :=
  [("if".toList, .IF), ("then".toList, .THEN), ("else".toList, .ELSE),
   ("end".toList, .END), ("repeat".toList, .REPEAT), ("until".toList, .UNTIL),
   ("read".toList, .READ), ("write".toList, .WRITE)]

/-- The linear search of `reservedLookup`: first exact match wins, `ID` when
no entry matches. -/
def lookupLoop : List (List Char × TokenType) → List Char → TokenType
  | [], _ => .ID
  | (w, t) :: rest, s => if s = w then t else lookupLoop rest s

/-- `reservedLookup` (`lexer.c`, lines 78-85): case-sensitive exact-match
linear search over the reserved-word table. -/
def reservedLookup (s : List Char) : TokenType :=
  lookupLoop reservedWords s

/-- The per-call state of one `getToken` invocation: the line-buffer state,
the current DFA state, the characters stored into `tokenString` so far, and
the `currentToken` variable (`none` while still unassigned). -/
structure ScanState where
  lex : LexerState
  state : StateType
  tokenString : List Char
  currentToken : Option TokenType
  deriving DecidableEq, Repr

/-- The store into `tokenString` (`lexer.c`, lines 226-227): the character is
appended exactly when `save` holds and `tokenStringIndex <= MAXTOKENLEN`
(note: this stores up to `MAXTOKENLEN + 1` characters). -/
def saveChar (g : ScanState) (c : Char) (save : Bool) : List Char :=
  if save = true ∧ g.tokenString.length ≤ MAXTOKENLEN then
    g.tokenString ++ [c]
  else g.tokenString

/-- The character actually stored by the cast `(char) c`; `save` is false on
every path where `c` is `EOF`, so the placeholder byte is never stored. -/
def CChar.toStored : CChar → Char
  | .ch c => c
  | .eof => '\xff'

/-- Finish an iteration that set `state = DONE`: terminate the lexeme and
reclassify a pending `ID` through the reserved-word table (`lexer.c`,
lines 228-233). -/
def mkDone (g : ScanState) (c : CChar) (lex : LexerState) (save : Bool)
    (t : TokenType) : ScanState :=
  let ts := saveChar g c.toStored save
  let t2 := if t = TokenType.ID then reservedLookup ts else t
  { lex := lex, state := .DONE, tokenString := ts, currentToken := some t2 }

/-- Finish an iteration that continues in state `st`. -/
def mkCont (g : ScanState) (c : CChar) (lex : LexerState) (save : Bool)
    (st : StateType) : ScanState :=
  { lex := lex, state := st, tokenString := saveChar g c.toStored save,
    currentToken := g.currentToken }

/-- The inner `switch (c)` of the `START` state (`lexer.c`, lines 167-223):
for each single-character token the pair (save flag, token kind); any other
character is an `ERROR` token whose character is saved. -/
def startSwitch (c : CChar) : Bool × TokenType :=
  match c with
  | .eof => (false, .ENDFILE)
  | .ch c' =>
    if c' = '+' then (false, .PLUS)
    else if c' = '-' then (false, .MINUS)
    else if c' = '*' then (false, .TIMES)
    else if c' = '/' then (false, .OVER)
    else if c' = ';' then (false, .SEMI)
    else if c' = '(' then (false, .LPAREN)
    else if c' = ')' then (false, .RPAREN)
    else if c' = '<' then (false, .LT)
    else if c' = '=' then (false, .EQ)
    else (true, .ERROR)

/-- The body of the DFA `switch (state)` for one consumed character. -/
def finishStep (g : ScanState) (c : CChar) (lex : LexerState) : ScanState :=
  match g.state with
  | .INID =>
    if ¬ c.isalpha then mkDone g c (ungetNextChar lex) false .ID
    else mkCont g c lex true .INID
  | .INNUM =>
    if ¬ c.isdigit then mkDone g c (ungetNextChar lex) false .NUM
    else mkCont g c lex true .INNUM
  | .INASSIGN =>
    if c = .ch '=' then mkDone g c lex true .ASSIGN
    else mkDone g c (ungetNextChar lex) false .ERROR
  | .INCOMMENT =>
    if c = .ch '\x7d' then mkCont g c lex false .START
    else mkCont g c lex false .INCOMMENT
  | .START =>
    if c.isdigit then mkCont g c lex true .INNUM
    else if c.isalpha then mkCont g c lex true .INID
    else if c = .ch '\x7b' then mkCont g c lex false .INCOMMENT
    else if c.isWhiteC then mkCont g c lex false .START
    else if c = .ch ':' then mkCont g c lex true .INASSIGN
    else mkDone g c lex (startSwitch c).1 (startSwitch c).2
  | .DONE => g

/-- One iteration of the `while (state != DONE)` loop of `getToken`
(`lexer.c`, lines 109-234): fetch a character and dispatch on the state. -/
def getTokenStep (g : ScanState) : ScanState :=
  finishStep g (getNextChar g.lex).1 (getNextChar g.lex).2

/-- The fuel-indexed DFA loop: iterate `getTokenStep` until `DONE`. -/
def getTokenLoop : Nat → ScanState → ScanState
  | 0, g => g
  | n + 1, g =>
    if g.state = StateType.DONE then g else getTokenLoop n (getTokenStep g)

/-- The per-call initialisation of `getToken`: state `START`, empty lexeme,
`currentToken` unassigned. -/
def startScan (s : LexerState) : ScanState :=
  { lex := s, state := .START, tokenString := [], currentToken := none }

/-- `getToken` with an explicit fuel bound on loop iterations: `some` of the
returned kind, the stored lexeme, and the updated buffer state when the loop
reaches `DONE` within `fuel` iterations, `none` otherwise. -/
def getToken (fuel : Nat) (s : LexerState) :
    Option (TokenType × List Char × LexerState) :=
  if (getTokenLoop fuel (startScan s)).state = StateType.DONE then
    some ((getTokenLoop fuel (startScan s)).currentToken.getD .ERROR,
      (getTokenLoop fuel (startScan s)).tokenString,
      (getTokenLoop fuel (startScan s)).lex)
  else none

/-- The driver loop of `main.c` (`while (getToken() != ENDFILE);`): collect
the token/lexeme pairs of up to `budget` successive `getToken` calls,
stopping after `ENDFILE`. -/
def tokenize (fuel : Nat) : Nat → LexerState → Option (List (TokenType × List Char))
  | 0, _ => none
  | budget + 1, s =>
    match getToken fuel s with
    | none => none
    | some (t, lx, s') =>
      if t = TokenType.ENDFILE then some [(t, lx)]
      else
        match tokenize fuel budget s' with
        | none => none
        | some rest => some ((t, lx) :: rest)

/-- Advancing the cursor by `k` positions inside the current buffer. -/
def advance (s : LexerState) (k : Nat) : LexerState :=
  { s with linepos := s.linepos + k }

/-- Well-formedness of a buffer state: `bufsize` caches the buffer length,
the cursor is inside `[0, bufsize]`, and a latched end-of-file flag means the
source is exhausted with the cursor at the end of the buffer.  It holds for
`initLexerState` and is preserved by `getNextChar` and `ungetNextChar`. -/
def LexerState.WF (s : LexerState) : Prop :=
  s.bufsize = s.lineBuf.length ∧ s.linepos ≤ s.bufsize ∧
    (s.eofFlag = true → s.src = [] ∧ s.bufsize ≤ s.linepos)

instance (s : LexerState) : Decidable s.WF := by
  unfold LexerState.WF; infer_instance

/-- The refill condition of `getNextChar` (`lexer.c`, line 40):
`!(linepos < bufsize)`. -/
def refillTriggered (s : LexerState) : Bool :=
  ! decide (s.linepos < s.bufsize)

/-- Number of characters still available to `getNextChar`: the unread part of
the current buffer plus the unread part of the source. -/
def charsLeft (s : LexerState) : Nat :=
  (s.bufsize - s.linepos) + s.src.length

/-- The absorbing configuration of an unterminated comment: DFA state
`INCOMMENT` with the end of input reached. -/
def Stuck (g : ScanState) : Prop :=
  g.state = .INCOMMENT ∧ g.lex.eofFlag = true ∧ g.lex.src = [] ∧
    g.lex.bufsize ≤ g.lex.linepos

instance (g : ScanState) : Decidable (Stuck g) := by
  unfold Stuck; infer_instance

/-- Divergence of a single `getToken` call on a given source file: no fuel
bound suffices for the DFA loop to reach `DONE`. -/
def getTokenDiverges (src : List Char) : Prop :=
  ∀ n, getToken n (initLexerState src) = none

/-- Reading the element a `drop` equation exposes. -/
theorem getD_of_drop {l : List Char} {n : Nat} {c : Char} {r : List Char}
    (h : l.drop n = c :: r) : l.getD n ' ' = c := by
  induction n generalizing l with
  | zero => rw [List.drop_zero] at h; subst h; rfl
  | succ n ih =>
    cases l with
    | nil => simp at h
    | cons a l =>
      rw [List.drop_succ_cons] at h
      rw [List.getD_cons_succ]
      exact ih h

/-- Dropping one more element past a `drop` equation. -/
theorem drop_succ_of_drop {l : List Char} {n : Nat} {c : Char} {r : List Char}
    (h : l.drop n = c :: r) : l.drop (n + 1) = r := by
  induction n generalizing l with
  | zero => rw [List.drop_zero] at h; subst h; simp
  | succ n ih =>
    cases l with
    | nil => simp at h
    | cons a l =>
      rw [List.drop_succ_cons] at h
      rw [List.drop_succ_cons]
      exact ih h

/-- A nonempty `drop` means the index is in bounds. -/
theorem lt_length_of_drop {l : List Char} {n : Nat} {c : Char} {r : List Char}
    (h : l.drop n = c :: r) : n < l.length := by
  by_contra hn
  push_neg at hn
  rw [List.drop_eq_nil_of_le hn] at h
  exact List.noConfusion h

/-- In-buffer read: when the characters after the cursor are `c :: r`,
`getNextChar` returns `c` and advances the cursor by one. -/
theorem getNextChar_inbuf {s : LexerState} {c : Char} {r : List Char}
    (hb : s.bufsize = s.lineBuf.length)
    (hd : s.lineBuf.drop s.linepos = c :: r) :
    getNextChar s = (.ch c, advance s 1) := by
  have hlt : s.linepos < s.bufsize := hb ▸ lt_length_of_drop hd
  unfold getNextChar
  rw [if_pos hlt, getD_of_drop hd]
  rfl

/-- `fgets` fails exactly at the end of the input. -/
theorem fgets_none {n : Nat} {s : List Char} : fgets n s = none ↔ s = [] := by
  cases s <;> simp [fgets]

/-- The chunk and remainder of `takeLine` partition the stream. -/
theorem takeLine_length (k : Nat) : ∀ s : List Char,
    (takeLine k s).1.length + (takeLine k s).2.length = s.length := by
  induction k with
  | zero => intro s; simp [takeLine]
  | succ k ih =>
    intro s
    cases s with
    | nil => simp [takeLine]
    | cons c s =>
      by_cases h : c = '\n'
      · simp [takeLine, h]; omega
      · simp only [takeLine, if_neg h, List.length_cons]
        have := ih s
        omega

/-- `takeLine` with positive budget on a nonempty stream reads something. -/
theorem takeLine_fst_ne_nil {k : Nat} {c : Char} {s : List Char} :
    (takeLine (k + 1) (c :: s)).1 ≠ [] := by
  by_cases h : c = '\n' <;> simp [takeLine, h]

/-- A successful `fgets` at the lexer's buffer size returns a nonempty chunk
that, with the remainder, partitions the stream. -/
theorem fgets_buflen_some {s l r : List Char}
    (h : fgets (BUFLEN - 1) s = some (l, r)) :
    l ≠ [] ∧ l.length + r.length = s.length := by
  cases s with
  | nil => simp [fgets] at h
  | cons c s' =>
    simp only [fgets, Option.some_inj] at h
    constructor
    · have h1 : (takeLine (253 + 1) (c :: s')).1 ≠ [] := takeLine_fst_ne_nil
      intro hnil
      apply h1
      rw [show (253 + 1 : Nat) = BUFLEN - 1 - 1 from rfl, h, hnil]
    · have h2 := takeLine_length (BUFLEN - 1 - 1) (c :: s')
      rw [h] at h2
      simpa using h2

/-- The failing read: `getNextChar` returns `EOF` exactly by latching the
flag and (still) incrementing the line counter, and this happens only when
the buffer is exhausted and the source is empty. -/
theorem getNextChar_eof {s s' : LexerState}
    (h : getNextChar s = (.eof, s')) :
    s' = { s with lineno := s.lineno + 1, eofFlag := true } ∧
      s.src = [] ∧ s.bufsize ≤ s.linepos := by
  unfold getNextChar at h
  by_cases hlt : s.linepos < s.bufsize
  · rw [if_pos hlt] at h
    exact absurd h (by simp)
  · rw [if_neg hlt] at h
    cases hf : fgets (BUFLEN - 1) s.src with
    | some p =>
      obtain ⟨l, r⟩ := p
      simp only [hf] at h
      exact absurd h (by simp)
    | none =>
      simp only [hf] at h
      refine ⟨?_, fgets_none.mp hf, by omega⟩
      have := congrArg Prod.snd h
      simpa using this.symm

/-- A successful read from a well-formed state: the new state is well formed,
the end-of-file flag is clear, the cursor is positive, the number of unread
characters strictly decreases, and one `ungetNextChar` makes the same
character available again. -/
theorem getNextChar_ch {s s' : LexerState} {c : Char}
    (hw : s.WF) (h : getNextChar s = (.ch c, s')) :
    s'.WF ∧ s'.eofFlag = false ∧ 1 ≤ s'.linepos ∧
      charsLeft s' < charsLeft s ∧
      (ungetNextChar s').linepos + 1 = s'.linepos ∧
      getNextChar (ungetNextChar s') = (.ch c, s') := by
  obtain ⟨hb, hpos, heof⟩ := hw
  have heff : s.eofFlag = false := by
    cases hef : s.eofFlag
    · rfl
    · exfalso
      obtain ⟨hsrc, hbs⟩ := heof hef
      unfold getNextChar at h
      rw [if_neg (by omega)] at h
      rw [hsrc] at h
      simp [fgets] at h
  unfold getNextChar at h
  by_cases hlt : s.linepos < s.bufsize
  · rw [if_pos hlt] at h
    have hc : s.lineBuf.getD s.linepos ' ' = c := by
      have := congrArg Prod.fst h
      simpa using this
    have hs' : s' = { s with linepos := s.linepos + 1 } := by
      have := congrArg Prod.snd h
      simpa using this.symm
    subst hs'
    have hu : ungetNextChar { s with linepos := s.linepos + 1 } = s := by
      unfold ungetNextChar
      rw [if_neg (by simp [heff])]
      simp
    refine ⟨⟨hb, show s.linepos + 1 ≤ s.bufsize by omega, ?_⟩, heff,
      show 1 ≤ s.linepos + 1 by omega, ?_, ?_, ?_⟩
    · intro hef
      exact absurd hef (by simp [heff])
    · show (s.bufsize - (s.linepos + 1)) + s.src.length <
        (s.bufsize - s.linepos) + s.src.length
      omega
    · rw [hu]
    · rw [hu]
      unfold getNextChar
      rw [if_pos hlt, hc]
  · rw [if_neg hlt] at h
    cases hf : fgets (BUFLEN - 1) s.src with
    | none => simp only [hf] at h; exact absurd h (by simp)
    | some p =>
      obtain ⟨l, r⟩ := p
      obtain ⟨hlnil, hlen⟩ := fgets_buflen_some hf
      simp only [hf] at h
      have hc : l.getD 0 ' ' = c := by
        have := congrArg Prod.fst h
        simpa using this
      have hs' : s' = { s with lineno := s.lineno + 1, src := r, lineBuf := l, bufsize := l.length, linepos := 1 } := by
        have := congrArg Prod.snd h
        simpa using this.symm
      have hlpos : 1 ≤ l.length := by
        cases l with
        | nil => exact absurd rfl hlnil
        | cons a l => simp
      subst hs'
      have hu : ungetNextChar { s with lineno := s.lineno + 1, src := r, lineBuf := l, bufsize := l.length, linepos := 1 } = { s with lineno := s.lineno + 1, src := r, lineBuf := l, bufsize := l.length, linepos := 0 } := by
        unfold ungetNextChar
        rw [if_neg (by simp [heff])]
        rfl
      refine ⟨⟨rfl, show 1 ≤ l.length from hlpos, ?_⟩, heff, le_refl 1,
        ?_, ?_, ?_⟩
      · intro hef
        exact absurd hef (by simp [heff])
      · show (l.length - 1) + r.length <
          (s.bufsize - s.linepos) + s.src.length
        omega
      · rw [hu]
      · rw [hu]
        unfold getNextChar
        rw [if_pos (show (0:Nat) < l.length by omega)]
        rw [show l.getD 0 ' ' = c from hc]

/-- `getNextChar` preserves well-formedness. -/
theorem getNextChar_wf {s : LexerState} (hw : s.WF) :
    (getNextChar s).2.WF := by
  cases hg : getNextChar s with
  | mk c s' =>
    cases c with
    | ch c => exact (getNextChar_ch hw hg).1
    | eof =>
      obtain ⟨h1, h2, h3⟩ := getNextChar_eof hg
      subst h1
      exact ⟨hw.1, hw.2.1, fun _ => ⟨h2, h3⟩⟩

/-- `ungetNextChar` preserves well-formedness. -/
theorem ungetNextChar_wf {s : LexerState} (hw : s.WF) :
    (ungetNextChar s).WF := by
  unfold ungetNextChar
  by_cases hef : s.eofFlag
  · rw [if_pos hef]; exact hw
  · rw [if_neg hef]
    obtain ⟨hb, hpos, heof⟩ := hw
    exact ⟨hb, show s.linepos - 1 ≤ s.bufsize by omega,
      fun hc => absurd hc (by simpa using hef)⟩

/-- A latched end-of-file flag makes `getNextChar` keep returning `EOF`. -/
theorem getNextChar_after_eof {s : LexerState} (hw : s.WF)
    (hef : s.eofFlag = true) :
    getNextChar s = (.eof, { s with lineno := s.lineno + 1, eofFlag := true }) := by
  obtain ⟨hb, hpos, heof⟩ := hw
  obtain ⟨hsrc, hbs⟩ := heof hef
  unfold getNextChar
  rw [if_neg (by omega)]
  rw [hsrc]
  simp [fgets]

/-- The loop is stable once the DFA has reached `DONE`. -/
theorem getTokenLoop_done {g : ScanState} (h : g.state = .DONE) :
    ∀ n, getTokenLoop n g = g := by
  intro n
  cases n with
  | zero => rfl
  | succ n => simp only [getTokenLoop, if_pos h]

/-- Unfolding one non-`DONE` iteration of the loop. -/
theorem getTokenLoop_succ {g : ScanState} (h : ¬ g.state = StateType.DONE)
    (n : Nat) :
    getTokenLoop (n + 1) g = getTokenLoop n (getTokenStep g) := by
  simp only [getTokenLoop, if_neg h]

/-- Splitting the fuel of the loop. -/
theorem getTokenLoop_add (a : Nat) : ∀ (n : Nat) (g : ScanState),
    getTokenLoop (a + n) g = getTokenLoop n (getTokenLoop a g) := by
  induction a with
  | zero => intro n g; rw [Nat.zero_add]; rfl
  | succ a ih =>
    intro n g
    by_cases h : g.state = StateType.DONE
    · simp only [getTokenLoop_done h]
    · have e : a + 1 + n = (a + n) + 1 := by omega
      rw [e, getTokenLoop_succ h, getTokenLoop_succ h, ih]

/-- Rewriting one loop iteration by the character it reads. -/
theorem getTokenStep_read {g : ScanState} {c : CChar} {lex : LexerState}
    (h : getNextChar g.lex = (c, lex)) :
    getTokenStep g = finishStep g c lex := by
  unfold getTokenStep
  rw [h]

/-- An iteration started in state `DONE` would leave the scan state
unchanged (the loop never runs such an iteration). -/
theorem getTokenStep_of_done {g : ScanState} (h : g.state = .DONE) :
    getTokenStep g = g := by
  unfold getTokenStep finishStep
  simp only [h]

/-- Each iteration leaves the buffer either exactly where the read put it or
one position back (the `ungetNextChar` paths). -/
theorem step_lex_cases (g : ScanState) (h : ¬ g.state = StateType.DONE) :
    (getTokenStep g).lex = (getNextChar g.lex).2 ∨
    (getTokenStep g).lex = ungetNextChar (getNextChar g.lex).2 := by
  unfold getTokenStep finishStep
  cases hst : g.state
  case DONE => exact absurd hst h
  all_goals simp only [mkDone, mkCont]
  case INID => split <;> simp
  case INNUM => split <;> simp
  case INASSIGN => split <;> simp
  case INCOMMENT => split <;> simp
  case START =>
    split
    · simp
    · split
      · simp
      · split
        · simp
        · split
          · simp
          · split <;> simp

/-- One iteration preserves well-formedness of the buffer state. -/
theorem step_wf {g : ScanState} (hw : g.lex.WF) : (getTokenStep g).lex.WF := by
  by_cases h : g.state = StateType.DONE
  · rw [getTokenStep_of_done h]; exact hw
  · rcases step_lex_cases g h with he | he
    · rw [he]; exact getNextChar_wf hw
    · rw [he]; exact ungetNextChar_wf (getNextChar_wf hw)

/-- `ungetNextChar` never touches the end-of-file flag. -/
theorem unget_eofFlag (s : LexerState) :
    (ungetNextChar s).eofFlag = s.eofFlag := by
  unfold ungetNextChar
  split <;> rfl

/-- Once latched, the end-of-file flag survives every loop iteration. -/
theorem step_eof_sticky {g : ScanState} (hw : g.lex.WF)
    (he : g.lex.eofFlag = true) : (getTokenStep g).lex.eofFlag = true := by
  by_cases h : g.state = StateType.DONE
  · rw [getTokenStep_of_done h]; exact he
  · have hre := getNextChar_after_eof hw he
    rcases step_lex_cases g h with heq | heq
    · rw [heq, hre]
    · rw [heq, unget_eofFlag, hre]

/-- The reserved-word search returns `ID` or a table entry for its key. -/
theorem lookupLoop_result :
    ∀ (tbl : List (List Char × TokenType)) (u : List Char),
      lookupLoop tbl u = .ID ∨ (u, lookupLoop tbl u) ∈ tbl := by
  intro tbl
  induction tbl with
  | nil => intro u; left; rfl
  | cons p rest ih =>
    intro u
    obtain ⟨w, t⟩ := p
    by_cases h : u = w
    · right
      subst h
      simp only [lookupLoop, if_pos rfl]
      exact List.mem_cons_self _ _
    · rcases ih u with h1 | h1
      · left
        simp only [lookupLoop, if_neg h]
        exact h1
      · right
        simp only [lookupLoop, if_neg h]
        exact List.mem_cons_of_mem _ h1

/-- The `START` switch never produces the kind `ID`. -/
theorem startSwitch_ne_id (c : CChar) : (startSwitch c).2 ≠ .ID := by
  cases c with
  | eof => decide
  | ch c' =>
    simp only [startSwitch]
    split_ifs <;> decide

/-- The `START` switch produces `ENDFILE` only for the `EOF` value. -/
theorem startSwitch_endfile {c : CChar} (h : (startSwitch c).2 = .ENDFILE) :
    c = .eof := by
  cases c with
  | eof => rfl
  | ch c' =>
    exfalso
    simp only [startSwitch] at h
    split_ifs at h

/-- The reserved-word lookup never produces `ENDFILE`. -/
theorem reservedLookup_ne_endfile (u : List Char) :
    reservedLookup u ≠ .ENDFILE := by
  rcases lookupLoop_result reservedWords u with h | h
  · rw [reservedLookup, h]; decide
  · intro hc
    rw [reservedLookup] at hc
    rw [hc] at h
    simp [reservedWords] at h

/-- Exact matches in the table are honoured by the lookup. -/
theorem reservedLookup_of_mem {u : List Char} {t : TokenType}
    (h : (u, t) ∈ reservedWords) : reservedLookup u = t := by
  fin_cases h <;> rfl

/-- When no table key equals the lexeme, the lookup yields `ID`. -/
theorem lookupLoop_of_no_match :
    ∀ (tbl : List (List Char × TokenType)) (u : List Char),
      (∀ p ∈ tbl, p.1 ≠ u) → lookupLoop tbl u = .ID := by
  intro tbl
  induction tbl with
  | nil => intro u _; rfl
  | cons p rest ih =>
    intro u hno
    obtain ⟨w, t⟩ := p
    have hw : w ≠ u := hno (w, t) (List.mem_cons_self _ _)
    have hne : ¬ u = w := fun hc => hw hc.symm
    simp only [lookupLoop, if_neg hne]
    exact ih u (fun q hq => hno q (List.mem_cons_of_mem _ hq))

/-- If an iteration produces the token `ENDFILE`, it either carried it over
from before or has just read the `EOF` value, whereupon the end-of-file flag
of its resulting buffer state is latched. -/
theorem step_tok_endfile {g : ScanState}
    (h : ¬ g.state = StateType.DONE)
    (he : (getTokenStep g).currentToken = some TokenType.ENDFILE) :
    g.currentToken = some TokenType.ENDFILE ∨
      (getTokenStep g).lex.eofFlag = true := by
  cases hp : getNextChar g.lex with
  | mk c0 lex1 =>
    rw [getTokenStep_read hp] at he ⊢
    unfold finishStep at he ⊢
    cases hst : g.state
    case DONE => exact absurd hst h
    all_goals simp only [hst] at he ⊢
    case INID =>
      split at he
      · exfalso
        simp only [mkDone, if_pos rfl] at he
        simp only [Option.some.injEq] at he
        exact reservedLookup_ne_endfile _ he
      · left
        simpa [mkCont] using he
    case INNUM =>
      split at he
      · exfalso
        simp [mkDone] at he
      · left
        simpa [mkCont] using he
    case INASSIGN =>
      split at he <;> exfalso <;> simp [mkDone] at he
    case INCOMMENT =>
      split at he
      · left; simpa [mkCont] using he
      · left; simpa [mkCont] using he
    case START =>
      split at he
      · left; simpa [mkCont] using he
      · split at he
        · left; simpa [mkCont] using he
        · split at he
          · left; simpa [mkCont] using he
          · split at he
            · left; simpa [mkCont] using he
            · split at he
              · left; simpa [mkCont] using he
              · right
                simp only [mkDone, if_neg (startSwitch_ne_id c0)] at he
                simp only [Option.some.injEq] at he
                have hc0 : c0 = .eof := startSwitch_endfile he
                subst hc0
                obtain ⟨h1, -, -⟩ := getNextChar_eof hp
                subst h1
                simp [mkDone, CChar.isdigit, CChar.isalpha, CChar.isWhiteC]

/-- Through the whole loop: well-formedness is preserved, and a final token
`ENDFILE` forces the end-of-file flag of the final buffer state. -/
theorem loop_inv_endfile : ∀ (n : Nat) (g : ScanState),
    g.lex.WF → (g.currentToken = some TokenType.ENDFILE → g.lex.eofFlag = true) →
    (getTokenLoop n g).lex.WF ∧
      ((getTokenLoop n g).currentToken = some TokenType.ENDFILE →
        (getTokenLoop n g).lex.eofFlag = true) := by
  intro n
  induction n with
  | zero => intro g h1 h2; exact ⟨h1, h2⟩
  | succ n ih =>
    intro g h1 h2
    by_cases hd : g.state = StateType.DONE
    · rw [getTokenLoop_done hd]
      exact ⟨h1, h2⟩
    · rw [getTokenLoop_succ hd]
      apply ih
      · exact step_wf h1
      · intro he
        rcases step_tok_endfile hd he with hc | hc
        · exact step_eof_sticky h1 (h2 hc)
        · exact hc

/-- C1: on the input `x := 12;`, successive `getToken` calls return exactly
identifier `"x"`, assignment, number `"12"`, semicolon, end-of-file, in that
order (with the assignment's stored lexeme being `":="` and the
single-character tokens storing no lexeme text). -/
theorem tokenize_x_assign_12 :
    tokenize 100 10 (initLexerState "x := 12;".toList) =
      some [(.ID, ['x']), (.ASSIGN, [':', '=']), (.NUM, ['1', '2']),
            (.SEMI, []), (.ENDFILE, [])] := rfl

/-- C4 (code bug): on an input token of 45 letters, `getToken` keeps storing
until `tokenStringIndex <= MAXTOKENLEN` fails, so the stored lexeme has
`MAXTOKENLEN + 1 = 41` characters — one more than the claimed bound — and the
NUL terminator is then written at index 41, one past the end of the declared
array `tokenString[MAXTOKENLEN + 1]`.  The remaining characters of the token
are still consumed: the following `;` and end-of-file are tokenized
normally. -/
theorem lexeme_overflow_bug :
    tokenize 60 5 (initLexerState (List.replicate 45 'a' ++ [';'])) =
      some [(.ID, List.replicate 41 'a'), (.SEMI, []), (.ENDFILE, [])] ∧
    (List.replicate 41 'a').length = MAXTOKENLEN + 1 := ⟨rfl, rfl⟩

/-- C5 (counterexample): on the empty input, `getToken` does return only the
end-of-file token, but the line counter ends at 1, not 0: `lineno++` is
executed before the `fgets` call, hence also on the failed read. -/
theorem empty_input_lineno_counterexample :
    (getToken 1 (initLexerState [])).map (fun r => (r.1, r.2.2.lineno)) =
      some (.ENDFILE, 1) ∧
    (getToken 1 (initLexerState [])).map (fun r => (r.1, r.2.2.lineno)) ≠
      some (.ENDFILE, 0) := by
  have h : (getToken 1 (initLexerState [])).map (fun r => (r.1, r.2.2.lineno)) =
      some (.ENDFILE, 1) := rfl
  exact ⟨h, by rw [h]; decide⟩

/-- C5 (amended): on the empty input the only token is end-of-file, and the
final buffer state has the end-of-file flag latched and the line counter at 1,
because the counter is incremented on every buffer-refill attempt, including
the failed read at end of input. -/
theorem empty_input_endfile :
    tokenize 10 10 (initLexerState []) = some [(.ENDFILE, [])] ∧
    getToken 1 (initLexerState []) =
      some (.ENDFILE, [],
        { src := [], lineBuf := [], linepos := 0, bufsize := 0,
          eofFlag := true, lineno := 1 }) := ⟨rfl, rfl⟩

/-- C6 (counterexample): the input, 254 spaces followed by `x;`, is a single
physical line of 256 characters, longer than the `fgets` bound
`BUFLEN - 2 = 254`, so it is read in two truncated chunks; the line counter
advances once per chunk, and after `getToken` returns the identifier `x`
(with `;` still unread, so no further read has happened) the counter is
already 2, not the 1 the claim requires for one physical line. -/
theorem long_line_lineno_counterexample :
    (getToken 300 (initLexerState (List.replicate 254 ' ' ++ ['x', ';']))).map
        (fun r => (r.1, r.2.2.lineno)) = some (.ID, 2) ∧
    (getToken 300 (initLexerState (List.replicate 254 ' ' ++ ['x', ';']))).map
        (fun r => (r.1, r.2.2.lineno)) ≠ some (.ID, 1) := by
  have h : (getToken 300 (initLexerState (List.replicate 254 ' ' ++ ['x', ';']))).map
      (fun r => (r.1, r.2.2.lineno)) = some (.ID, 2) := rfl
  exact ⟨h, by rw [h]; decide⟩

/-- C6 (amended): lines longer than the buffer bound are read in truncated
chunks, and the line counter advances exactly once per buffer refill attempt
(hence once per chunk, not once per physical line): `getNextChar` leaves
`lineno` unchanged on an in-buffer read and increments it by one whenever the
cursor has reached the buffer size. -/
theorem lineno_per_refill (s : LexerState) :
    ((getNextChar s).2).lineno =
      if s.linepos < s.bufsize then s.lineno else s.lineno + 1 := by
  by_cases h : s.linepos < s.bufsize
  · simp [getNextChar, h]
  · simp only [getNextChar, if_neg h]
    cases hf : fgets (BUFLEN - 1) s.src with
    | none => simp [hf]
    | some p => simp [hf]

/-- C2: wherever the next two available characters are `:` and then `c`, one
`getToken` call from that position returns, if `c` is `=`, exactly one
assignment token with lexeme `":="` whose final buffer state is the one after
both reads (both characters consumed); and otherwise exactly one error token
whose lexeme is just the `:`, with the buffer stepped back one position so
that the very next read yields `c` again exactly as if it had never been
consumed (hence scanning `:x` yields error-for-`:`, then the `x` is
tokenized fresh). -/
theorem assign_lookahead (s s1 s2 : LexerState) (c : Char) (n : Nat)
    (hw : s.WF)
    (h1 : getNextChar s = (.ch ':', s1))
    (h2 : getNextChar s1 = (.ch c, s2)) :
    (c = '=' → getToken (n + 2) s = some (.ASSIGN, [':', '='], s2)) ∧
    (c ≠ '=' →
      getToken (n + 2) s = some (.ERROR, [':'], ungetNextChar s2) ∧
      getNextChar (ungetNextChar s2) = (.ch c, s2)) := by
  have hw1 : s1.WF := (getNextChar_ch hw h1).1
  have hrt := (getNextChar_ch hw1 h2).2.2.2.2.2
  have hst0 : ¬ (startScan s).state = StateType.DONE := by
    show ¬ StateType.START = StateType.DONE
    decide
  have e1 : getTokenStep (startScan s) =
      { lex := s1, state := .INASSIGN, tokenString := [':'], currentToken := none } := by
    rw [getTokenStep_read (show getNextChar (startScan s).lex = (.ch ':', s1) from h1)]
    rfl
  constructor
  · intro hc
    subst hc
    have e2 : getTokenStep { lex := s1, state := .INASSIGN, tokenString := [':'], currentToken := none } =
        { lex := s2, state := .DONE, tokenString := [':', '='], currentToken := some .ASSIGN } := by
      rw [getTokenStep_read (show getNextChar ({ lex := s1, state := .INASSIGN, tokenString := [':'], currentToken := none } : ScanState).lex = (.ch '=', s2) from h2)]
      rfl
    have hloop : getTokenLoop (n + 2) (startScan s) =
        { lex := s2, state := .DONE, tokenString := [':', '='], currentToken := some .ASSIGN } := by
      rw [show n + 2 = (n + 1) + 1 from rfl]
      rw [getTokenLoop_succ hst0, e1]
      rw [getTokenLoop_succ (fun hx => StateType.noConfusion (hx : ({ lex := s1, state := .INASSIGN, tokenString := [':'], currentToken := none } : ScanState).state = StateType.DONE)), e2]
      exact getTokenLoop_done rfl n
    unfold getToken
    rw [hloop]
    rfl
  · intro hc
    have hne : ¬ (CChar.ch c = CChar.ch '=') := by
      intro h
      exact hc (by injection h)
    have e2 : getTokenStep { lex := s1, state := .INASSIGN, tokenString := [':'], currentToken := none } =
        { lex := ungetNextChar s2, state := .DONE, tokenString := [':'], currentToken := some .ERROR } := by
      rw [getTokenStep_read (show getNextChar ({ lex := s1, state := .INASSIGN, tokenString := [':'], currentToken := none } : ScanState).lex = (.ch c, s2) from h2)]
      simp only [finishStep]
      rw [if_neg hne]
      rfl
    have hloop : getTokenLoop (n + 2) (startScan s) =
        { lex := ungetNextChar s2, state := .DONE, tokenString := [':'], currentToken := some .ERROR } := by
      rw [show n + 2 = (n + 1) + 1 from rfl]
      rw [getTokenLoop_succ hst0, e1]
      rw [getTokenLoop_succ (fun hx => StateType.noConfusion (hx : ({ lex := s1, state := .INASSIGN, tokenString := [':'], currentToken := none } : ScanState).state = StateType.DONE)), e2]
      exact getTokenLoop_done rfl n
    refine ⟨?_, hrt⟩
    unfold getToken
    rw [hloop]
    rfl

/-- Witness for C2 on the concrete input `:x`. -/
theorem assign_lookahead_witness :
    (initLexerState [':', 'x']).WF ∧
      (('x' = '=' →
          getToken (0 + 2) (initLexerState [':', 'x']) =
            some (.ASSIGN, [':', '='],
              { src := [], lineBuf := [':', 'x'], linepos := 2, bufsize := 2, eofFlag := false, lineno := 1 })) ∧
        ('x' ≠ '=' →
          getToken (0 + 2) (initLexerState [':', 'x']) =
            some (.ERROR, [':'],
              ungetNextChar { src := [], lineBuf := [':', 'x'], linepos := 2, bufsize := 2, eofFlag := false, lineno := 1 }) ∧
          getNextChar (ungetNextChar { src := [], lineBuf := [':', 'x'], linepos := 2, bufsize := 2, eofFlag := false, lineno := 1 }) =
            (.ch 'x', { src := [], lineBuf := [':', 'x'], linepos := 2, bufsize := 2, eofFlag := false, lineno := 1 }))) :=
  ⟨by decide,
    assign_lookahead (initLexerState [':', 'x'])
      { src := [], lineBuf := [':', 'x'], linepos := 1, bufsize := 2, eofFlag := false, lineno := 1 }
      { src := [], lineBuf := [':', 'x'], linepos := 2, bufsize := 2, eofFlag := false, lineno := 1 }
      'x' 0 (by decide) rfl rfl⟩

/-- C9: for a well-formed buffer state, the cursor lies in `[0, bufsize]`
(positions are naturals, so the lower bound is by construction), the refill
condition of `getNextChar` holds exactly when the cursor has reached the
buffer length, `ungetNextChar` is a no-op once the end-of-file flag is
latched (also when repeated), and otherwise — under the one-putback-per-read
discipline, i.e. right after a successful read — it decrements the cursor by
exactly one, preserving well-formedness; both operations preserve the
invariant, so it holds along every sequence of them. -/
theorem buffer_cursor_invariant (s s' : LexerState) (c : CChar)
    (hw : s.WF) (hg : getNextChar s = (c, s')) :
    s.linepos ≤ s.bufsize ∧
      (refillTriggered s = true ↔ s.linepos = s.bufsize) ∧
      (s.eofFlag = true →
        ungetNextChar s = s ∧ ungetNextChar (ungetNextChar s) = s) ∧
      s'.WF ∧ s'.linepos ≤ s'.bufsize ∧
      (c ≠ CChar.eof →
        1 ≤ s'.linepos ∧ (ungetNextChar s').linepos + 1 = s'.linepos ∧
          (ungetNextChar s').WF) := by
  obtain ⟨hb, hpos, heof⟩ := hw
  have hw' : s'.WF := by
    have h := getNextChar_wf (⟨hb, hpos, heof⟩ : LexerState.WF s)
    rw [hg] at h
    exact h
  refine ⟨hpos, ?_, ?_, hw', hw'.2.1, ?_⟩
  · unfold refillTriggered
    constructor
    · intro h
      have hnlt : ¬ s.linepos < s.bufsize := by
        intro hlt
        rw [show decide (s.linepos < s.bufsize) = true from decide_eq_true hlt] at h
        exact Bool.noConfusion h
      omega
    · intro h
      have hnlt : ¬ s.linepos < s.bufsize := by omega
      rw [show decide (s.linepos < s.bufsize) = false from decide_eq_false hnlt]
      rfl
  · intro hef
    have h1 : ungetNextChar s = s := by
      unfold ungetNextChar
      rw [if_pos hef]
    exact ⟨h1, by rw [h1, h1]⟩
  · intro hne
    cases c with
    | eof => exact absurd rfl hne
    | ch c2 =>
      obtain ⟨hwf', hef', hle, -, hdec, -⟩ :=
        getNextChar_ch (⟨hb, hpos, heof⟩ : LexerState.WF s) hg
      exact ⟨hle, hdec, ungetNextChar_wf hwf'⟩

/-- Witness for C9 on the one-character input `x`. -/
theorem buffer_cursor_invariant_witness :
    (initLexerState ['x']).WF ∧
      ((initLexerState ['x']).linepos ≤ (initLexerState ['x']).bufsize ∧
        (refillTriggered (initLexerState ['x']) = true ↔
          (initLexerState ['x']).linepos = (initLexerState ['x']).bufsize) ∧
        ((initLexerState ['x']).eofFlag = true →
          ungetNextChar (initLexerState ['x']) = initLexerState ['x'] ∧
          ungetNextChar (ungetNextChar (initLexerState ['x'])) = initLexerState ['x']) ∧
        LexerState.WF { src := [], lineBuf := ['x'], linepos := 1, bufsize := 1, eofFlag := false, lineno := 1 } ∧
        ({ src := [], lineBuf := ['x'], linepos := 1, bufsize := 1, eofFlag := false, lineno := 1 } : LexerState).linepos ≤
          ({ src := [], lineBuf := ['x'], linepos := 1, bufsize := 1, eofFlag := false, lineno := 1 } : LexerState).bufsize ∧
        (CChar.ch 'x' ≠ CChar.eof →
          1 ≤ ({ src := [], lineBuf := ['x'], linepos := 1, bufsize := 1, eofFlag := false, lineno := 1 } : LexerState).linepos ∧
          (ungetNextChar { src := [], lineBuf := ['x'], linepos := 1, bufsize := 1, eofFlag := false, lineno := 1 }).linepos + 1 =
            ({ src := [], lineBuf := ['x'], linepos := 1, bufsize := 1, eofFlag := false, lineno := 1 } : LexerState).linepos ∧
          (ungetNextChar { src := [], lineBuf := ['x'], linepos := 1, bufsize := 1, eofFlag := false, lineno := 1 }).WF)) :=
  ⟨by decide,
    buffer_cursor_invariant (initLexerState ['x'])
      { src := [], lineBuf := ['x'], linepos := 1, bufsize := 1, eofFlag := false, lineno := 1 }
      (.ch 'x') (by decide) rfl⟩

/-- C10: end-of-file is absorbing.  If some `getToken` call returns the
end-of-file token, the end-of-file flag is latched in the returned buffer
state, and from it every later `getToken` call (any positive fuel) again
returns the end-of-file token with an empty lexeme: `getNextChar` keeps
returning the `EOF` value (only bumping the line counter) and the `START`
state maps it to `ENDFILE`. -/
theorem endfile_absorbing (fuel n : Nat) (s s1 : LexerState) (lx : List Char)
    (hw : s.WF) (h : getToken fuel s = some (.ENDFILE, lx, s1)) :
    s1.eofFlag = true ∧
      getToken (n + 1) s1 =
        some (.ENDFILE, [], { s1 with lineno := s1.lineno + 1, eofFlag := true }) := by
  unfold getToken at h
  by_cases hD : (getTokenLoop fuel (startScan s)).state = StateType.DONE
  · rw [if_pos hD] at h
    simp only [Option.some.injEq, Prod.mk.injEq] at h
    obtain ⟨htok, hts, hlex⟩ := h
    have hinv := loop_inv_endfile fuel (startScan s) hw
      (fun hc => by simp [startScan] at hc)
    have htok' : (getTokenLoop fuel (startScan s)).currentToken =
        some TokenType.ENDFILE := by
      cases hct : (getTokenLoop fuel (startScan s)).currentToken with
      | none =>
        rw [hct] at htok
        exact absurd htok (by decide)
      | some t =>
        rw [hct] at htok
        simp only [Option.getD_some] at htok
        rw [htok]
    have hef : s1.eofFlag = true := by
      rw [← hlex]
      exact hinv.2 htok'
    have hws1 : s1.WF := by
      rw [← hlex]
      exact hinv.1
    refine ⟨hef, ?_⟩
    have e1 : getTokenStep (startScan s1) =
        { lex := { s1 with lineno := s1.lineno + 1, eofFlag := true }, state := .DONE, tokenString := [], currentToken := some .ENDFILE } := by
      rw [getTokenStep_read (show getNextChar (startScan s1).lex = (.eof, { s1 with lineno := s1.lineno + 1, eofFlag := true }) from getNextChar_after_eof hws1 hef)]
      rfl
    have hloop : getTokenLoop (n + 1) (startScan s1) =
        { lex := { s1 with lineno := s1.lineno + 1, eofFlag := true }, state := .DONE, tokenString := [], currentToken := some .ENDFILE } := by
      rw [getTokenLoop_succ (fun hx => StateType.noConfusion (hx : (startScan s1).state = StateType.DONE)), e1]
      exact getTokenLoop_done rfl n
    unfold getToken
    rw [hloop]
    rfl
  · rw [if_neg hD] at h
    exact absurd h (by simp)

/-- Witness for C10 on the empty input: the first call returns end-of-file
and the next call returns it again. -/
theorem endfile_absorbing_witness :
    (initLexerState []).WF ∧
      (({ src := [], lineBuf := [], linepos := 0, bufsize := 0, eofFlag := true, lineno := 1 } : LexerState).eofFlag = true ∧
        getToken (0 + 1) { src := [], lineBuf := [], linepos := 0, bufsize := 0, eofFlag := true, lineno := 1 } =
          some (.ENDFILE, [], { src := [], lineBuf := [], linepos := 0, bufsize := 0, eofFlag := true, lineno := 2 })) :=
  ⟨by decide,
    endfile_absorbing 1 0 (initLexerState [])
      { src := [], lineBuf := [], linepos := 0, bufsize := 0, eofFlag := true, lineno := 1 }
      [] (by decide) rfl⟩

/-- Advancing by nothing is the identity. -/
theorem advance_zero (s : LexerState) : advance s 0 = s := rfl

/-- Advancing composes additively. -/
theorem advance_advance (s : LexerState) (a b : Nat) :
    advance (advance s a) b = advance s (a + b) := by
  unfold advance
  rw [Nat.add_assoc]

/-- A letter (C locale) is never a digit. -/
theorem alpha_not_digit {a : Char} (h : charIsAlpha a = true) :
    charIsDigit a = false := by
  by_contra hd0
  rw [Bool.not_eq_false] at hd0
  simp only [charIsDigit, Bool.and_eq_true, decide_eq_true_eq] at hd0
  simp only [charIsAlpha, Bool.or_eq_true, Bool.and_eq_true,
    decide_eq_true_eq] at h
  rcases h with ⟨h1, -⟩ | ⟨h1, -⟩
  · exact absurd (le_trans h1 hd0.2) (by decide)
  · exact absurd (le_trans h1 hd0.2) (by decide)

/-- Dropping past an exposed prefix. -/
theorem drop_append_of_drop {l u v : List Char} {n : Nat}
    (h : l.drop n = u ++ v) : l.drop (n + u.length) = v := by
  induction u generalizing n with
  | nil => simpa using h
  | cons a u ih =>
    have h1 : l.drop n = a :: (u ++ v) := by simpa using h
    have h2 := ih (n := n + 1) (drop_succ_of_drop h1)
    have e : n + (a :: u).length = n + 1 + u.length := by
      simp [List.length_cons]
      omega
    rw [e]
    exact h2

/-- In state `START`, a whitespace character is discarded: back to `START`,
nothing saved, cursor advanced by one. -/
theorem step_start_ws {g : ScanState} {a : Char} {r : List Char}
    (hst : g.state = .START)
    (hb : g.lex.bufsize = g.lex.lineBuf.length)
    (hd : g.lex.lineBuf.drop g.lex.linepos = a :: r)
    (hws : isWhite a = true) :
    getTokenStep g = { lex := advance g.lex 1, state := .START, tokenString := g.tokenString, currentToken := g.currentToken } := by
  rw [getTokenStep_read (getNextChar_inbuf hb hd)]
  simp only [isWhite, Bool.or_eq_true, decide_eq_true_eq] at hws
  rcases hws with ((((h | h) | h) | h) | h) | h <;> subst h <;>
    simp only [finishStep, hst] <;> rfl

/-- In state `START`, a letter starts an identifier: move to `INID`, save the
character, advance the cursor by one. -/
theorem step_start_alpha {g : ScanState} {a : Char} {r : List Char}
    (hst : g.state = .START)
    (hb : g.lex.bufsize = g.lex.lineBuf.length)
    (hd : g.lex.lineBuf.drop g.lex.linepos = a :: r)
    (ha : charIsAlpha a = true) :
    getTokenStep g = { lex := advance g.lex 1, state := .INID, tokenString := saveChar g a true, currentToken := g.currentToken } := by
  rw [getTokenStep_read (getNextChar_inbuf hb hd)]
  simp only [finishStep, hst]
  rw [if_neg (by simp [CChar.isdigit, alpha_not_digit ha])]
  rw [if_pos (by simp [CChar.isalpha, ha])]
  rfl

/-- In state `START`, a `{` opens a comment: move to `INCOMMENT`, nothing
saved. -/
theorem step_start_lbrace {g : ScanState} {r : List Char}
    (hst : g.state = .START)
    (hb : g.lex.bufsize = g.lex.lineBuf.length)
    (hd : g.lex.lineBuf.drop g.lex.linepos = '\x7b' :: r) :
    getTokenStep g = { lex := advance g.lex 1, state := .INCOMMENT, tokenString := g.tokenString, currentToken := g.currentToken } := by
  rw [getTokenStep_read (getNextChar_inbuf hb hd)]
  simp only [finishStep, hst]
  rfl

/-- In state `INCOMMENT`, any character other than `}` is discarded and the
state stays `INCOMMENT`. -/
theorem step_incomment_other {g : ScanState} {a : Char} {r : List Char}
    (hst : g.state = .INCOMMENT)
    (hb : g.lex.bufsize = g.lex.lineBuf.length)
    (hd : g.lex.lineBuf.drop g.lex.linepos = a :: r)
    (hne : a ≠ '\x7d') :
    getTokenStep g = { lex := advance g.lex 1, state := .INCOMMENT, tokenString := g.tokenString, currentToken := g.currentToken } := by
  rw [getTokenStep_read (getNextChar_inbuf hb hd)]
  simp only [finishStep, hst]
  rw [if_neg (by simp [hne])]
  rfl

/-- In state `INCOMMENT`, a `}` closes the comment and returns to `START`,
nothing saved. -/
theorem step_incomment_close {g : ScanState} {r : List Char}
    (hst : g.state = .INCOMMENT)
    (hb : g.lex.bufsize = g.lex.lineBuf.length)
    (hd : g.lex.lineBuf.drop g.lex.linepos = '\x7d' :: r) :
    getTokenStep g = { lex := advance g.lex 1, state := .START, tokenString := g.tokenString, currentToken := g.currentToken } := by
  rw [getTokenStep_read (getNextChar_inbuf hb hd)]
  simp only [finishStep, hst]
  rfl

/-- In state `INID`, a letter is saved and the state stays `INID`. -/
theorem step_inid_alpha {g : ScanState} {a : Char} {r : List Char}
    (hst : g.state = .INID)
    (hb : g.lex.bufsize = g.lex.lineBuf.length)
    (hd : g.lex.lineBuf.drop g.lex.linepos = a :: r)
    (ha : charIsAlpha a = true) :
    getTokenStep g = { lex := advance g.lex 1, state := .INID, tokenString := saveChar g a true, currentToken := g.currentToken } := by
  rw [getTokenStep_read (getNextChar_inbuf hb hd)]
  simp only [finishStep, hst]
  rw [if_neg (by simp [CChar.isalpha, ha])]
  rfl

/-- In state `INID`, a non-letter ends the identifier: it is pushed back (the
cursor returns to it), nothing more is saved, and the pending `ID` is
reclassified through the reserved-word table. -/
theorem step_inid_end {g : ScanState} {d : Char} {r : List Char}
    (hst : g.state = .INID)
    (hb : g.lex.bufsize = g.lex.lineBuf.length)
    (heof : g.lex.eofFlag = false)
    (hd : g.lex.lineBuf.drop g.lex.linepos = d :: r)
    (hna : charIsAlpha d = false) :
    getTokenStep g = { lex := g.lex, state := .DONE, tokenString := g.tokenString, currentToken := some (reservedLookup g.tokenString) } := by
  rw [getTokenStep_read (getNextChar_inbuf hb hd)]
  simp only [finishStep, hst]
  rw [if_pos (by simp [CChar.isalpha, hna])]
  have hu : ungetNextChar (advance g.lex 1) = g.lex := by
    unfold ungetNextChar
    rw [if_neg (by simpa [advance] using heof)]
    simp [advance]
  rw [hu]
  rfl

/-- Consuming a run of whitespace from `START`: the state, lexeme and token
are untouched, only the cursor advances. -/
theorem ws_run : ∀ (w : List Char) (g : ScanState) (r : List Char),
    g.state = .START →
    g.lex.bufsize = g.lex.lineBuf.length →
    g.lex.lineBuf.drop g.lex.linepos = w ++ r →
    w.all isWhite = true →
    getTokenLoop w.length g = { lex := advance g.lex w.length, state := .START, tokenString := g.tokenString, currentToken := g.currentToken } := by
  intro w
  induction w with
  | nil =>
    intro g r hst _ _ _
    simp only [List.length_nil]
    rw [show advance g.lex 0 = g.lex from rfl, ← hst]
    rfl
  | cons a w' ih =>
    intro g r hst hb hd hall
    simp only [List.all_cons, Bool.and_eq_true] at hall
    have hd1 : g.lex.lineBuf.drop g.lex.linepos = a :: (w' ++ r) := by
      simpa using hd
    have hstep := step_start_ws hst hb hd1 hall.1
    have hnd : ¬ g.state = StateType.DONE := by
      rw [hst]; exact fun hx => StateType.noConfusion hx
    rw [show (a :: w').length = w'.length + 1 from by simp]
    rw [getTokenLoop_succ hnd, hstep]
    have hih := ih { lex := advance g.lex 1, state := .START, tokenString := g.tokenString, currentToken := g.currentToken } r rfl
      hb (drop_succ_of_drop hd1) hall.2
    rw [hih, advance_advance, Nat.add_comm 1 w'.length]

/-- Consuming the body and closing `}` of a comment from `INCOMMENT`. -/
theorem incomment_run : ∀ (b : List Char) (g : ScanState) (r : List Char),
    g.state = .INCOMMENT →
    g.lex.bufsize = g.lex.lineBuf.length →
    g.lex.lineBuf.drop g.lex.linepos = b ++ '\x7d' :: r →
    b.all (fun x => x ≠ '\x7d') = true →
    getTokenLoop (b.length + 1) g = { lex := advance g.lex (b.length + 1), state := .START, tokenString := g.tokenString, currentToken := g.currentToken } := by
  intro b
  induction b with
  | nil =>
    intro g r hst hb hd _
    have hnd : ¬ g.state = StateType.DONE := by
      rw [hst]; exact fun hx => StateType.noConfusion hx
    rw [getTokenLoop_succ hnd, step_incomment_close hst hb (by simpa using hd)]
    rfl
  | cons a b' ih =>
    intro g r hst hb hd hall
    simp only [List.all_cons, Bool.and_eq_true, decide_eq_true_eq] at hall
    have hd1 : g.lex.lineBuf.drop g.lex.linepos = a :: (b' ++ '\x7d' :: r) := by
      simpa using hd
    have hnd : ¬ g.state = StateType.DONE := by
      rw [hst]; exact fun hx => StateType.noConfusion hx
    rw [show (a :: b').length + 1 = (b'.length + 1) + 1 from by simp]
    rw [getTokenLoop_succ hnd, step_incomment_other hst hb hd1 hall.1]
    have hih := ih { lex := advance g.lex 1, state := .INCOMMENT, tokenString := g.tokenString, currentToken := g.currentToken } r rfl
      hb (drop_succ_of_drop hd1) hall.2
    rw [hih, advance_advance, Nat.add_comm 1 (b'.length + 1)]

/-- Consuming a whole `{ ... }` comment from `START`: fully transparent, the
cursor just moves past it. -/
theorem comment_skip (b : List Char) (g : ScanState) (r : List Char)
    (hst : g.state = .START)
    (hb : g.lex.bufsize = g.lex.lineBuf.length)
    (hd : g.lex.lineBuf.drop g.lex.linepos = '\x7b' :: (b ++ '\x7d' :: r))
    (hall : b.all (fun x => x ≠ '\x7d') = true) :
    getTokenLoop (b.length + 2) g = { lex := advance g.lex (b.length + 2), state := .START, tokenString := g.tokenString, currentToken := g.currentToken } := by
  have hnd : ¬ g.state = StateType.DONE := by
    rw [hst]; exact fun hx => StateType.noConfusion hx
  rw [show b.length + 2 = (b.length + 1) + 1 from rfl]
  rw [getTokenLoop_succ hnd, step_start_lbrace hst hb hd]
  have hih := incomment_run b { lex := advance g.lex 1, state := .INCOMMENT, tokenString := g.tokenString, currentToken := g.currentToken } r rfl
    hb (drop_succ_of_drop hd) hall
  rw [hih, advance_advance, Nat.add_comm 1 (b.length + 1)]

/-- One unit of fuel runs exactly one (non-final) iteration. -/
theorem getTokenLoop_one {g : ScanState} (h : ¬ g.state = StateType.DONE) :
    getTokenLoop 1 g = getTokenStep g := by
  show (if g.state = StateType.DONE then g
    else getTokenLoop 0 (getTokenStep g)) = getTokenStep g
  rw [if_neg h]
  rfl

/-- Scanning a maximal run of letters from state `INID`: all letters are
consumed, the first `MAXTOKENLEN + 1 - |stored|` of them are appended to the
lexeme, the delimiter is pushed back, and the pending identifier is
classified through the reserved-word table. -/
theorem inid_run : ∀ (w : List Char) (g : ScanState) (d : Char) (r : List Char),
    g.state = .INID →
    g.lex.bufsize = g.lex.lineBuf.length →
    g.lex.eofFlag = false →
    g.lex.lineBuf.drop g.lex.linepos = w ++ d :: r →
    w.all charIsAlpha = true →
    charIsAlpha d = false →
    getTokenLoop (w.length + 1) g = { lex := advance g.lex w.length, state := .DONE, tokenString := g.tokenString ++ w.take (MAXTOKENLEN + 1 - g.tokenString.length), currentToken := some (reservedLookup (g.tokenString ++ w.take (MAXTOKENLEN + 1 - g.tokenString.length))) } := by
  intro w
  induction w with
  | nil =>
    intro g d r hst hb heof hd _ hna
    have hnd : ¬ g.state = StateType.DONE := by
      rw [hst]; exact fun hx => StateType.noConfusion hx
    simp only [List.length_nil, List.take_nil, List.append_nil]
    rw [getTokenLoop_succ hnd, step_inid_end hst hb heof (by simpa using hd) hna]
    rfl
  | cons a w' ih =>
    intro g d r hst hb heof hd hall hna
    simp only [List.all_cons, Bool.and_eq_true] at hall
    have hd1 : g.lex.lineBuf.drop g.lex.linepos = a :: (w' ++ d :: r) := by
      simpa using hd
    have hnd : ¬ g.state = StateType.DONE := by
      rw [hst]; exact fun hx => StateType.noConfusion hx
    simp only [List.length_cons]
    rw [getTokenLoop_succ hnd, step_inid_alpha hst hb hd1 hall.1]
    have hih : getTokenLoop (w'.length + 1) ({ lex := advance g.lex 1, state := .INID, tokenString := saveChar g a true, currentToken := g.currentToken } : ScanState) = { lex := advance (advance g.lex 1) w'.length, state := .DONE, tokenString := saveChar g a true ++ w'.take (MAXTOKENLEN + 1 - (saveChar g a true).length), currentToken := some (reservedLookup (saveChar g a true ++ w'.take (MAXTOKENLEN + 1 - (saveChar g a true).length))) } :=
      ih { lex := advance g.lex 1, state := .INID, tokenString := saveChar g a true, currentToken := g.currentToken } d r rfl hb heof (drop_succ_of_drop hd1) hall.2 hna
    rw [hih, advance_advance, Nat.add_comm 1 w'.length]
    have hts : saveChar g a true ++ w'.take (MAXTOKENLEN + 1 - (saveChar g a true).length) = g.tokenString ++ (a :: w').take (MAXTOKENLEN + 1 - g.tokenString.length) := by
      unfold saveChar
      by_cases hlen : g.tokenString.length ≤ MAXTOKENLEN
      · rw [if_pos ⟨rfl, hlen⟩]
        rw [List.length_append, List.length_singleton]
        rw [show MAXTOKENLEN + 1 - (g.tokenString.length + 1) = MAXTOKENLEN - g.tokenString.length from by omega]
        rw [show MAXTOKENLEN + 1 - g.tokenString.length = (MAXTOKENLEN - g.tokenString.length) + 1 from by omega]
        rw [List.take_succ_cons]
        rw [List.append_assoc]
        rfl
      · rw [if_neg (fun hc => hlen hc.2)]
        rw [show MAXTOKENLEN + 1 - g.tokenString.length = 0 from by omega]
        rfl
    rw [hts]

/-- C3: for every identifier-shaped lexeme (a maximal nonempty run of
letters at the current position), `getToken` returns the kind produced by the
case-sensitive exact-match `reservedLookup` of the full stored lexeme (the
run, cut off at the storage bound), with the lexeme preserved verbatim up to
that bound; moreover an exact table match yields that keyword's kind (the
table's keys are distinct, so the first match in fixed order is the only
match), and a lexeme matching no table key exactly stays `ID` — partial
matches never reclassify. -/
theorem identifier_reserved_classify (w : List Char) (d : Char)
    (r : List Char) (s : LexerState) (n : Nat) (u : List Char)
    (t : TokenType)
    (hne : w ≠ [])
    (hall : w.all charIsAlpha = true)
    (hnd : charIsAlpha d = false)
    (hb : s.bufsize = s.lineBuf.length)
    (heof : s.eofFlag = false)
    (hdrop : s.lineBuf.drop s.linepos = w ++ d :: r) :
    getToken (w.length + 1 + n) s = some (reservedLookup (w.take (MAXTOKENLEN + 1)), w.take (MAXTOKENLEN + 1), advance s w.length) ∧
      ((u, t) ∈ reservedWords → reservedLookup u = t) ∧
      (reservedWords.all (fun p => p.1 ≠ u) = true → reservedLookup u = .ID) := by
  refine ⟨?_, reservedLookup_of_mem, ?_⟩
  · obtain ⟨a, w', rfl⟩ := List.exists_cons_of_ne_nil hne
    simp only [List.all_cons, Bool.and_eq_true] at hall
    have hd1 : s.lineBuf.drop s.linepos = a :: (w' ++ d :: r) := by
      simpa using hdrop
    have hst0 : ¬ (startScan s).state = StateType.DONE := by
      show ¬ StateType.START = StateType.DONE
      decide
    have e1 : getTokenStep (startScan s) = { lex := advance s 1, state := .INID, tokenString := [a], currentToken := none } :=
      step_start_alpha (g := startScan s) rfl hb hd1 hall.1
    have h2 := inid_run w' { lex := advance s 1, state := .INID, tokenString := [a], currentToken := none } d r rfl hb heof (drop_succ_of_drop hd1) hall.2 hnd
    have hts : ([a] : List Char) ++ w'.take (MAXTOKENLEN + 1 - 1) = (a :: w').take (MAXTOKENLEN + 1) := by
      rw [show MAXTOKENLEN + 1 - 1 = MAXTOKENLEN from rfl]
      rw [List.take_succ_cons]
      rfl
    have hB : getTokenLoop (w'.length + 1) ({ lex := advance s 1, state := .INID, tokenString := [a], currentToken := none } : ScanState) = { lex := advance s (w'.length + 1), state := .DONE, tokenString := (a :: w').take (MAXTOKENLEN + 1), currentToken := some (reservedLookup ((a :: w').take (MAXTOKENLEN + 1))) } := by
      rw [h2, advance_advance, Nat.add_comm 1 w'.length]
      show ({ lex := advance s (w'.length + 1), state := .DONE, tokenString := [a] ++ w'.take (MAXTOKENLEN + 1 - 1), currentToken := some (reservedLookup ([a] ++ w'.take (MAXTOKENLEN + 1 - 1))) } : ScanState) = _
      rw [hts]
    have hloop : getTokenLoop ((a :: w').length + 1 + n) (startScan s) = { lex := advance s (w'.length + 1), state := .DONE, tokenString := (a :: w').take (MAXTOKENLEN + 1), currentToken := some (reservedLookup ((a :: w').take (MAXTOKENLEN + 1))) } := by
      simp only [List.length_cons]
      rw [show w'.length + 1 + 1 + n = 1 + ((w'.length + 1) + n) from by omega]
      rw [getTokenLoop_add 1, getTokenLoop_one hst0, e1]
      rw [getTokenLoop_add (w'.length + 1), hB]
      exact getTokenLoop_done rfl n
    unfold getToken
    rw [hloop]
    rfl
  · intro hallu
    apply lookupLoop_of_no_match
    intro p hp
    have h := List.all_eq_true.mp hallu p hp
    simpa using h

/-- Witness for C3 on the reserved word `if` (and the case-sensitivity of
the lookup on `IF`). -/
theorem identifier_reserved_classify_witness :
    (['i', 'f'] : List Char) ≠ [] ∧
      (getToken ((['i', 'f'] : List Char).length + 1 + 0) { src := [], lineBuf := ['i', 'f', ' '], linepos := 0, bufsize := 3, eofFlag := false, lineno := 1 } = some (reservedLookup ((['i', 'f'] : List Char).take (MAXTOKENLEN + 1)), (['i', 'f'] : List Char).take (MAXTOKENLEN + 1), advance { src := [], lineBuf := ['i', 'f', ' '], linepos := 0, bufsize := 3, eofFlag := false, lineno := 1 } (['i', 'f'] : List Char).length) ∧
        ((['I', 'F'], TokenType.IF) ∈ reservedWords → reservedLookup ['I', 'F'] = TokenType.IF) ∧
        (reservedWords.all (fun p => p.1 ≠ ['I', 'F']) = true → reservedLookup ['I', 'F'] = .ID)) :=
  ⟨by decide,
    identifier_reserved_classify ['i', 'f'] ' ' []
      { src := [], lineBuf := ['i', 'f', ' '], linepos := 0, bufsize := 3, eofFlag := false, lineno := 1 }
      0 ['I', 'F'] .IF (by decide) (by decide) (by decide) (by decide)
      (by decide) rfl⟩

/-- C7: a comment, followed by optional whitespace and a second comment, at
the current position is fully transparent: `getToken` run over them produces
no token and returns exactly what `getToken` returns when started just past
them — the same next real token as if the comments were absent from the
input. -/
theorem comment_skip_transparent (b1 b2 w rest : List Char)
    (s : LexerState) (n : Nat)
    (h1 : b1.all (fun x => x ≠ '\x7d') = true)
    (h2 : b2.all (fun x => x ≠ '\x7d') = true)
    (hws : w.all isWhite = true)
    (hb : s.bufsize = s.lineBuf.length)
    (hd : s.lineBuf.drop s.linepos = '\x7b' :: (b1 ++ '\x7d' :: (w ++ '\x7b' :: (b2 ++ '\x7d' :: rest)))) :
    getToken ((b1.length + 2) + (w.length + (b2.length + 2)) + n) s =
      getToken n (advance s ((b1.length + 2) + (w.length + (b2.length + 2)))) := by
  have hA : getTokenLoop (b1.length + 2) (startScan s) = { lex := advance s (b1.length + 2), state := .START, tokenString := [], currentToken := none } :=
    comment_skip b1 (startScan s) _ rfl hb hd h1
  have hd1 : s.lineBuf.drop s.linepos = ('\x7b' :: (b1 ++ ['\x7d'])) ++ (w ++ ('\x7b' :: (b2 ++ '\x7d' :: rest))) := by
    simpa [List.append_assoc] using hd
  have hd2 : s.lineBuf.drop (s.linepos + (b1.length + 2)) = w ++ ('\x7b' :: (b2 ++ '\x7d' :: rest)) := by
    have h := drop_append_of_drop hd1
    have e : s.linepos + ('\x7b' :: (b1 ++ ['\x7d'])).length = s.linepos + (b1.length + 2) := by
      simp only [List.length_cons, List.length_append, List.length_nil]
    rw [e] at h
    exact h
  have hB : getTokenLoop w.length ({ lex := advance s (b1.length + 2), state := .START, tokenString := [], currentToken := none } : ScanState) = { lex := advance s ((b1.length + 2) + w.length), state := .START, tokenString := [], currentToken := none } := by
    have h := ws_run w { lex := advance s (b1.length + 2), state := .START, tokenString := [], currentToken := none } ('\x7b' :: (b2 ++ '\x7d' :: rest)) rfl hb hd2
    rw [advance_advance] at h
    exact h hws
  have hd3 : s.lineBuf.drop (s.linepos + ((b1.length + 2) + w.length)) = '\x7b' :: (b2 ++ '\x7d' :: rest) := by
    have h := drop_append_of_drop hd2
    have e : s.linepos + (b1.length + 2) + w.length = s.linepos + ((b1.length + 2) + w.length) := by
      omega
    rw [e] at h
    exact h
  have hC : getTokenLoop (b2.length + 2) ({ lex := advance s ((b1.length + 2) + w.length), state := .START, tokenString := [], currentToken := none } : ScanState) = { lex := advance s (((b1.length + 2) + w.length) + (b2.length + 2)), state := .START, tokenString := [], currentToken := none } := by
    have h := comment_skip b2 { lex := advance s ((b1.length + 2) + w.length), state := .START, tokenString := [], currentToken := none } rest rfl hb hd3 h2
    rw [advance_advance] at h
    exact h
  have htotal : getTokenLoop ((b1.length + 2) + (w.length + (b2.length + 2)) + n) (startScan s) = getTokenLoop n (startScan (advance s ((b1.length + 2) + (w.length + (b2.length + 2))))) := by
    rw [show (b1.length + 2) + (w.length + (b2.length + 2)) + n = (b1.length + 2) + (w.length + ((b2.length + 2) + n)) from by omega]
    rw [getTokenLoop_add (b1.length + 2), hA]
    rw [getTokenLoop_add w.length, hB]
    rw [getTokenLoop_add (b2.length + 2), hC]
    have e2 : ({ lex := advance s (((b1.length + 2) + w.length) + (b2.length + 2)), state := .START, tokenString := [], currentToken := none } : ScanState) = startScan (advance s ((b1.length + 2) + (w.length + (b2.length + 2)))) := by
      rw [show ((b1.length + 2) + w.length) + (b2.length + 2) = (b1.length + 2) + (w.length + (b2.length + 2)) from by omega]
      rfl
    rw [e2]
  unfold getToken
  rw [htotal]

/-- Witness for C7 on the buffer `{a} {b}x`: skipping `{a}`, a space and
`{b}` yields the same call result as starting right before the `x`. -/
theorem comment_skip_transparent_witness :
    (['a'] : List Char).all (fun x => x ≠ '\x7d') = true ∧
      getToken (((['a'] : List Char).length + 2) + (([' '] : List Char).length + ((['b'] : List Char).length + 2)) + 5) { src := [], lineBuf := ['\x7b', 'a', '\x7d', ' ', '\x7b', 'b', '\x7d', 'x'], linepos := 0, bufsize := 8, eofFlag := false, lineno := 1 } =
        getToken 5 (advance { src := [], lineBuf := ['\x7b', 'a', '\x7d', ' ', '\x7b', 'b', '\x7d', 'x'], linepos := 0, bufsize := 8, eofFlag := false, lineno := 1 } (((['a'] : List Char).length + 2) + (([' '] : List Char).length + ((['b'] : List Char).length + 2)))) :=
  ⟨by decide,
    comment_skip_transparent ['a'] ['b'] [' '] ['x']
      { src := [], lineBuf := ['\x7b', 'a', '\x7d', ' ', '\x7b', 'b', '\x7d', 'x'], linepos := 0, bufsize := 8, eofFlag := false, lineno := 1 }
      5 (by decide) (by decide) (by decide) (by decide) rfl⟩

/-- With an exhausted buffer and an empty source, `getNextChar` returns the
`EOF` value (still incrementing the line counter). -/
theorem getNextChar_eof_of {s : LexerState} (hsrc : s.src = [])
    (hbp : s.bufsize ≤ s.linepos) :
    getNextChar s = (.eof, { s with lineno := s.lineno + 1, eofFlag := true }) := by
  unfold getNextChar
  rw [if_neg (by omega)]
  rw [hsrc]
  simp [fgets]

/-- A stuck configuration (unterminated comment at end of input) steps to
itself, except for the line counter. -/
theorem stuck_step {g : ScanState} (hs : Stuck g) :
    getTokenStep g = { lex := { g.lex with lineno := g.lex.lineno + 1, eofFlag := true }, state := .INCOMMENT, tokenString := g.tokenString, currentToken := g.currentToken } ∧ Stuck (getTokenStep g) := by
  obtain ⟨hst, hef, hsrc, hbp⟩ := hs
  have hread := getNextChar_eof_of hsrc hbp
  have h1 : getTokenStep g = { lex := { g.lex with lineno := g.lex.lineno + 1, eofFlag := true }, state := .INCOMMENT, tokenString := g.tokenString, currentToken := g.currentToken } := by
    rw [getTokenStep_read hread]
    simp only [finishStep, hst]
    rw [if_neg (by decide)]
    rfl
  refine ⟨h1, ?_⟩
  rw [h1]
  exact ⟨rfl, rfl, hsrc, hbp⟩

/-- Once stuck, the loop stays stuck forever. -/
theorem stuck_forever : ∀ (k : Nat) (g : ScanState), Stuck g →
    Stuck (getTokenLoop k g) := by
  intro k
  induction k with
  | zero => intro g hs; exact hs
  | succ k ih =>
    intro g hs
    have hnd : ¬ g.state = StateType.DONE := by
      rw [hs.1]; exact fun hx => StateType.noConfusion hx
    rw [getTokenLoop_succ hnd]
    exact ih _ (stuck_step hs).2

/-- C8 (counterexample): on the input `{` — an unterminated comment — the
DFA loop of `getToken` never reaches `DONE`: after consuming the `{` and
hitting end of input it is stuck in `INCOMMENT` reading `EOF` forever, so the
call does not run to completion for any fuel bound. -/
theorem unterminated_comment_diverges : getTokenDiverges ['\x7b'] := by
  intro n
  have hne : ¬ (getTokenLoop n (startScan (initLexerState ['\x7b']))).state = StateType.DONE := by
    match n with
    | 0 => decide
    | 1 => decide
    | (k + 2) =>
      have h2 : getTokenLoop 2 (startScan (initLexerState ['\x7b'])) = { lex := { src := [], lineBuf := ['\x7b'], linepos := 1, bufsize := 1, eofFlag := true, lineno := 2 }, state := .INCOMMENT, tokenString := [], currentToken := none } := by rfl
      have hrw : getTokenLoop (k + 2) (startScan (initLexerState ['\x7b'])) = getTokenLoop k (getTokenLoop 2 (startScan (initLexerState ['\x7b']))) := by
        rw [show k + 2 = 2 + k from by omega, getTokenLoop_add]
      rw [hrw, h2]
      have hs := stuck_forever k { lex := { src := [], lineBuf := ['\x7b'], linepos := 1, bufsize := 1, eofFlag := true, lineno := 2 }, state := .INCOMMENT, tokenString := [], currentToken := none } (by decide)
      exact fun hx => StateType.noConfusion ((hs.1).symm.trans hx)
  unfold getToken
  rw [if_neg hne]

/-- An iteration that reads the `EOF` value either finishes the token or
lands in the stuck unterminated-comment configuration. -/
theorem step_eof_cases {g : ScanState} (hst : ¬ g.state = StateType.DONE)
    {lex1 : LexerState} (hread : getNextChar g.lex = (.eof, lex1)) :
    (getTokenStep g).state = StateType.DONE ∨ Stuck (getTokenStep g) := by
  obtain ⟨heq, hsrc, hbp⟩ := getNextChar_eof hread
  rw [getTokenStep_read hread]
  cases hstc : g.state
  case DONE => exact absurd hstc hst
  case START =>
    left
    simp [finishStep, hstc, CChar.isdigit, CChar.isalpha, CChar.isWhiteC, mkDone]
  case INID =>
    left
    simp [finishStep, hstc, CChar.isalpha, mkDone]
  case INNUM =>
    left
    simp [finishStep, hstc, CChar.isdigit, mkDone]
  case INASSIGN =>
    left
    simp [finishStep, hstc, mkDone]
  case INCOMMENT =>
    right
    have hf : finishStep g .eof lex1 = mkCont g .eof lex1 false .INCOMMENT := by
      simp [finishStep, hstc]
    rw [hf]
    refine ⟨rfl, ?_, ?_, ?_⟩
    · show lex1.eofFlag = true
      rw [heq]
    · show lex1.src = []
      rw [heq]
      exact hsrc
    · show lex1.bufsize ≤ lex1.linepos
      rw [heq]
      exact hbp

/-- An iteration that reads an actual character either finishes the token or
continues with the buffer exactly where the read left it (no push-back on a
continuing path). -/
theorem step_ch_cases {g : ScanState} (hst : ¬ g.state = StateType.DONE)
    {c : Char} {lex1 : LexerState} (hread : getNextChar g.lex = (.ch c, lex1)) :
    (getTokenStep g).state = StateType.DONE ∨
      ((getTokenStep g).lex = lex1 ∧
        ¬ (getTokenStep g).state = StateType.DONE) := by
  rw [getTokenStep_read hread]
  cases hstc : g.state
  case DONE => exact absurd hstc hst
  case INID =>
    by_cases ha : (CChar.ch c).isalpha = true
    · right
      have hf : finishStep g (.ch c) lex1 = mkCont g (.ch c) lex1 true .INID := by
        simp [finishStep, hstc, ha]
      rw [hf]
      exact ⟨rfl, fun hx => StateType.noConfusion hx⟩
    · left
      simp [finishStep, hstc, ha, mkDone]
  case INNUM =>
    by_cases ha : (CChar.ch c).isdigit = true
    · right
      have hf : finishStep g (.ch c) lex1 = mkCont g (.ch c) lex1 true .INNUM := by
        simp [finishStep, hstc, ha]
      rw [hf]
      exact ⟨rfl, fun hx => StateType.noConfusion hx⟩
    · left
      simp [finishStep, hstc, ha, mkDone]
  case INASSIGN =>
    left
    have hf : (finishStep g (.ch c) lex1).state = StateType.DONE := by
      simp only [finishStep, hstc]
      split <;> simp [mkDone]
    exact hf
  case INCOMMENT =>
    right
    constructor
    · simp only [finishStep, hstc]
      split <;> rfl
    · simp only [finishStep, hstc]
      split <;> exact fun hx => StateType.noConfusion hx
  case START =>
    simp only [finishStep, hstc]
    split
    · right; exact ⟨rfl, fun hx => StateType.noConfusion hx⟩
    · split
      · right; exact ⟨rfl, fun hx => StateType.noConfusion hx⟩
      · split
        · right; exact ⟨rfl, fun hx => StateType.noConfusion hx⟩
        · split
          · right; exact ⟨rfl, fun hx => StateType.noConfusion hx⟩
          · split
            · right; exact ⟨rfl, fun hx => StateType.noConfusion hx⟩
            · left; rfl

/-- Main termination analysis: from any well-formed configuration the loop
either reaches `DONE` within some fuel, or reaches the stuck
unterminated-comment configuration. -/
theorem loop_total_aux : ∀ (m : Nat) (g : ScanState),
    charsLeft g.lex ≤ m → g.lex.WF →
    (∃ n, (getTokenLoop n g).state = StateType.DONE) ∨
      (∃ n, Stuck (getTokenLoop n g)) := by
  intro m
  induction m with
  | zero =>
    intro g hm hw
    by_cases hd : g.state = StateType.DONE
    · exact Or.inl ⟨0, hd⟩
    · cases hp : getNextChar g.lex with
      | mk c0 lex1 =>
        cases c0 with
        | eof =>
          rcases step_eof_cases hd hp with h | h
          · exact Or.inl ⟨1, by rw [getTokenLoop_one hd]; exact h⟩
          · exact Or.inr ⟨1, by rw [getTokenLoop_one hd]; exact h⟩
        | ch c =>
          have hdec := (getNextChar_ch hw hp).2.2.2.1
          omega
  | succ m ih =>
    intro g hm hw
    by_cases hd : g.state = StateType.DONE
    · exact Or.inl ⟨0, hd⟩
    · cases hp : getNextChar g.lex with
      | mk c0 lex1 =>
        cases c0 with
        | eof =>
          rcases step_eof_cases hd hp with h | h
          · exact Or.inl ⟨1, by rw [getTokenLoop_one hd]; exact h⟩
          · exact Or.inr ⟨1, by rw [getTokenLoop_one hd]; exact h⟩
        | ch c =>
          rcases step_ch_cases hd hp with h | ⟨hlex, hnd2⟩
          · exact Or.inl ⟨1, by rw [getTokenLoop_one hd]; exact h⟩
          · have hdec := (getNextChar_ch hw hp).2.2.2.1
            have hw1 := (getNextChar_ch hw hp).1
            rcases ih (getTokenStep g) (by rw [hlex]; omega)
                (by rw [hlex]; exact hw1) with ⟨n, hn⟩ | ⟨n, hn⟩
            · exact Or.inl ⟨n + 1, by rw [getTokenLoop_succ hd]; exact hn⟩
            · exact Or.inr ⟨n + 1, by rw [getTokenLoop_succ hd]; exact hn⟩

/-- C8 (amended): from every well-formed buffer state, a `getToken` call
either runs to completion (some fuel bound makes the DFA loop reach `DONE`
and return), or it never returns — and in that case the loop has reached the
`INCOMMENT` state with the end-of-file flag latched, i.e. the input ended
inside an unterminated comment, the one configuration in which the loop spins
forever. -/
theorem getToken_total_or_comment (s : LexerState) (hw : s.WF) :
    (∃ n r, getToken n s = some r) ∨
      ((∀ n, getToken n s = none) ∧
        ∃ n, (getTokenLoop n (startScan s)).state = StateType.INCOMMENT ∧
          (getTokenLoop n (startScan s)).lex.eofFlag = true) := by
  rcases loop_total_aux (charsLeft s) (startScan s) (le_refl _) hw with
    ⟨n, hn⟩ | ⟨n, hn⟩
  · left
    refine ⟨n, ((getTokenLoop n (startScan s)).currentToken.getD .ERROR, (getTokenLoop n (startScan s)).tokenString, (getTokenLoop n (startScan s)).lex), ?_⟩
    unfold getToken
    rw [if_pos hn]
  · right
    have hnotdone : ∀ k,
        ¬ (getTokenLoop k (startScan s)).state = StateType.DONE := by
      intro k hk
      cases Nat.le_total k n with
      | inl hkn =>
        have heq : getTokenLoop n (startScan s) = getTokenLoop k (startScan s) := by
          rw [show n = k + (n - k) from by omega, getTokenLoop_add,
            getTokenLoop_done hk]
        have h2 : (getTokenLoop k (startScan s)).state = StateType.INCOMMENT := by
          rw [← heq]
          exact hn.1
        exact StateType.noConfusion (h2.symm.trans hk)
      | inr hnk =>
        have heq : getTokenLoop k (startScan s) = getTokenLoop (k - n) (getTokenLoop n (startScan s)) := by
          have h := getTokenLoop_add n (k - n) (startScan s)
          rw [show n + (k - n) = k from by omega] at h
          exact h
        have hs2 := stuck_forever (k - n) _ hn
        rw [heq] at hk
        exact StateType.noConfusion ((hs2.1).symm.trans hk)
    constructor
    · intro k
      unfold getToken
      rw [if_neg (hnotdone k)]
    · exact ⟨n, hn.1, hn.2.1⟩

/-- Witness for C8 (amended) on the input `x`. -/
theorem getToken_total_or_comment_witness :
    (initLexerState ['x']).WF ∧
      ((∃ n r, getToken n (initLexerState ['x']) = some r) ∨
        ((∀ n, getToken n (initLexerState ['x']) = none) ∧
          ∃ n, (getTokenLoop n (startScan (initLexerState ['x']))).state = StateType.INCOMMENT ∧
            (getTokenLoop n (startScan (initLexerState ['x']))).lex.eofFlag = true)) :=
  ⟨by decide, getToken_total_or_comment (initLexerState ['x']) (by decide)⟩

end TinyLexer
